import Mathlib

/-!
Verification of `patch_script.py`: a script that applies a fixed, ordered list
of line insertions and per-line regex substitutions to a document.

The document model follows the source: `content.split('\n')` produces the line
list, edits mutate it in order, and `"\n".join(lines)` rebuilds the output.
Strings are modelled as `List Char`; a document is a `List (List Char)`.
-/

/-- The character list of a string literal (Python's immutable `str`). -/
def chars (s : String) : List Char := s.data

/-- Python's `content.split('\n')`: split into lines at every newline.
Always returns at least one (possibly empty) line. -/
def splitNl : List Char → List (List Char)
  | [] => [[]]
  | c :: rest =>
    if c = '\n' then [] :: splitNl rest
    else
      match splitNl rest with
      | [] => [[c]]
      | l :: ls => (c :: l) :: ls

/-- Python's `"\n".join(lines)`: interleave the lines with single newlines. -/
def joinNl : List (List Char) → List Char
  | [] => []
  | [l] => l
  | l :: l' :: ls => l ++ '\n' :: joinNl (l' :: ls)

/-- A compiled pattern element: `some c` is the literal character `c`,
`none` is the regex wildcard `.` (matches any character except newline). -/
abbrev PatElem := Option Char

/-- Compile one of the script's regex literals. The script's three patterns
consist only of letters, digits, `-` and `.`; of these only `.` is a regex
metacharacter (it matches any character except a newline), so compilation
maps `.` to the wildcard and every other character to itself. -/
def litPat (s : String) : List PatElem :=
  s.data.map (fun c => if c = '.' then none else some c)

/-- Does the pattern match a prefix of the character list? -/
def matchesAt : List PatElem → List Char → Bool
  | [], _ => true
  | _ :: _, [] => false
  | some a :: ps, c :: cs => a == c && matchesAt ps cs
  | none :: ps, c :: cs => c != '\n' && matchesAt ps cs

/-- Python's `re.sub(pat, repl, s)` for the script's fixed-length patterns:
scan left to right; at each position, if the pattern matches, emit the
replacement and continue after the matched text (non-overlapping), otherwise
emit the character and move on.  All matches are replaced (`re.sub` has no
`count` argument in the script).  The `0 < pat.length` guard only rules out
the empty pattern, which the script never uses. -/
def reSub (pat : List PatElem) (repl : List Char) (s : List Char) : List Char :=
  match s with
  | [] => []
  | c :: rest =>
    if h : matchesAt pat (c :: rest) = true ∧ 0 < pat.length then
      repl ++ reSub pat repl ((c :: rest).drop pat.length)
    else
      c :: reSub pat repl rest
termination_by s.length
decreasing_by
  · obtain ⟨-, h2⟩ := h
    simp only [List.length_drop, List.length_cons]
    omega
  · simp only [List.length_cons]
    omega

/-- Python's `lines.insert(i, x)` for a nonnegative index: inserts before
position `i`, and silently clamps an index beyond the end to an append
(`l.take i = l` and `l.drop i = []` when `l.length ≤ i`). -/
def pyInsert {α : Type} (l : List α) (i : Nat) (x : α) : List α :=
  l.take i ++ x :: l.drop i

/-- One edit operation of the script: a `lines.insert(i, content)` call or a
`lines[i] = re.sub(pattern, replacement, lines[i])` statement. -/
inductive Op where
  | ins (i : Nat) (content : List Char)
  | rep (i : Nat) (pat : List PatElem) (repl : List Char)

/-- Apply one operation to the current line list.  An insert always succeeds
(Python clamps the index); a replace first reads `lines[i]`, which raises
`IndexError` (modelled as `none`) when `i` is out of range. -/
def applyOp (l : List (List Char)) : Op → Option (List (List Char))
  | Op.ins i c => some (pyInsert l i c)
  | Op.rep i pat repl =>
    match l[i]? with
    | none => none
    | some s => some (l.set i (reSub pat repl s))

/-- Apply a list of operations in order; the first failure aborts the pass. -/
def applyOps : List (List Char) → List Op → Option (List (List Char))
  | l, [] => some l
  | l, op :: ops =>
    match applyOp l op with
    | none => none
    | some l2 => applyOps l2 ops

/-- Operation 1 of `apply_changes` (source line 7). -/
def op01 : Op := Op.ins 4824 (chars "# Stage 0: Initial Points from GPX")
/-- Operation 2 (source line 8). -/
def op02 : Op := Op.rep 4848 (litPat "perl-00-original.txt") (chars "perl-00-initial-points.txt")
/-- Operation 3 (source line 11). -/
def op03 : Op := Op.ins 4850 (chars "# Stage 1: Remove Duplicate Points")
/-- Operation 4 (source line 14). -/
def op04 : Op := Op.ins 4854 (chars "# Stage 2: Repeat Track")
/-- Operation 5 (source line 17). -/
def op05 : Op := Op.ins 4890 (chars "# Stage 3: Crop Points")
/-- Operation 6 (source line 20). -/
def op06 : Op := Op.ins 4950 (chars "# Stage 4: Fix Zig-Zags")
/-- Operation 7 (source line 23). -/
def op07 : Op := Op.ins 4955 (chars "# Stage 5: Adjust Altitudes")
/-- Operation 8 (source line 26). -/
def op08 : Op := Op.ins 4975 (chars "# Stage 6: Reverse Course")
/-- Operation 9 (source line 29). -/
def op09 : Op := Op.ins 4982 (chars "# Stage 7: Crop Corners")
/-- Operation 10 (source line 32). -/
def op10 : Op := Op.ins 5008 (chars "# Stage 8: Auto-Straighten")
/-- Operation 11 (source line 35). -/
def op11 : Op := Op.ins 5050 (chars "# Stage 9: Snap Repeated Points (Pass 1)")
/-- Operation 12 (source line 38). -/
def op12 : Op := Op.ins 5063 (chars "# Stage 10: Add Corner Splines")
/-- Operation 13 (source line 39). -/
def op13 : Op := Op.rep 5068 (litPat "perl-10-after-splines.txt") (chars "perl-10-splines-added.txt")
/-- Operation 14 (source line 42). -/
def op14 : Op := Op.ins 5069 (chars "# Stage 11: Add Corner Arc Fits")
/-- Operation 15 (source line 43). -/
def op15 : Op := Op.rep 5074 (litPat "perl-11-after-arcfit.txt") (chars "perl-11-arcfit-added.txt")
/-- Operation 16 (source line 46). -/
def op16 : Op := Op.ins 5078 (chars "# Stage 12: Auto-Spacing at Corners")
/-- Operation 17 (source line 49). -/
def op17 : Op := Op.ins 5090 (chars "# Stage 13: Point Interpolation")
/-- Operation 18 (source line 50). -/
def op18 : Op := Op.ins 5097 (chars "    dumpPoints($points, \"perl-13-interpolated.txt\");")
/-- Operation 19 (source line 53). -/
def op19 : Op := Op.ins 5099 (chars "# Stage 14: Process Straight Sections")
/-- Operation 20 (source line 54). -/
def op20 : Op := Op.ins 5104 (chars "    dumpPoints($points, \"perl-14-straights-processed.txt\");")
/-- Operation 21 (source line 57). -/
def op21 : Op := Op.ins 5105 (chars "# Stage 15: Process Circular Fits")
/-- Operation 22 (source line 58). -/
def op22 : Op := Op.ins 5110 (chars "    dumpPoints($points, \"perl-15-circles-processed.txt\");")
/-- Operation 23 (source line 61). -/
def op23 : Op := Op.ins 5111 (chars "# Stage 16: Snap Repeated Points (Pass 2)")
/-- Operation 24 (source line 62). -/
def op24 : Op := Op.ins 5123 (chars "    dumpPoints($points, \"perl-16-snapped-pass2.txt\");")
/-- Operation 25 (source line 65). -/
def op25 : Op := Op.ins 5220 (chars "# Stage 17: Add Corner Splines (Post-smoothing)")
/-- Operation 26 (source line 66). -/
def op26 : Op := Op.ins 5224 (chars "    dumpPoints($points, \"perl-17-splines-added-post-smoothing.txt\");")
/-- Operation 27 (source line 69). -/
def op27 : Op := Op.ins 5225 (chars "# Stage 18: Add Corner Arc Fits (Post-smoothing)")
/-- Operation 28 (source line 70). -/
def op28 : Op := Op.ins 5229 (chars "    dumpPoints($points, \"perl-18-arcfit-added-post-smoothing.txt\");")
/-- Operation 29 (source line 73). -/
def op29 : Op := Op.ins 5230 (chars "# Stage 19: Flatten Sections")
/-- Operation 30 (source line 76). -/
def op30 : Op := Op.ins 5253 (chars "# Stage 20: Fix Crossings")
/-- Operation 31 (source line 79). -/
def op31 : Op := Op.ins 5406 (chars "# Stage 21: Auto-Segments")
/-- Operation 32 (source line 82). -/
def op32 : Op := Op.ins 5458 (chars "# Stage 22: Final Crop")
/-- Operation 33 (source line 83). -/
def op33 : Op := Op.ins 5464 (chars "    dumpPoints($points, \"perl-22-final-crop.txt\");")
/-- Operation 34 (source line 86). -/
def op34 : Op := Op.ins 5465 (chars "# Stage 23: Prune Points")
/-- Operation 35 (source line 89). -/
def op35 : Op := Op.ins 5530 (chars "# Stage 24: Apply Lane Shift")
/-- Operation 36 (source line 90). -/
def op36 : Op := Op.ins 5566 (chars "    dumpPoints($points, \"perl-24-lane-shift-applied.txt\");")
/-- Operation 37 (source line 93). -/
def op37 : Op := Op.ins 5567 (chars "# Stage 25: Add Return Points (Out-and-back)")
/-- Operation 38 (source line 94). -/
def op38 : Op := Op.ins 5572 (chars "    dumpPoints($points, \"perl-25-return-points-added.txt\");")
/-- Operation 39 (source line 97). -/
def op39 : Op := Op.ins 5573 (chars "# Stage 26: Crop for extendBack")
/-- Operation 40 (source line 98). -/
def op40 : Op := Op.ins 5575 (chars "  dumpPoints($points, \"perl-26-cropped-for-extend-back.txt\")")
/-- Operation 41 (source line 101). -/
def op41 : Op := Op.ins 5577 (chars "# Stage 27: Add U-Turn Loops")
/-- Operation 42 (source line 104). -/
def op42 : Op := Op.ins 5648 (chars "# Stage 28: Apply Minimum Radius")
/-- Operation 43 (source line 107). -/
def op43 : Op := Op.ins 5712 (chars "# Stage 29: Shift Start/Finish")
/-- Operation 44 (source line 110). -/
def op44 : Op := Op.ins 5767 (chars "# Stage 30: Copy Start Point to End")
/-- Operation 45 (source line 111). -/
def op45 : Op := Op.ins 5776 (chars "    dumpPoints($points, \"perl-30-start-point-copied.txt\");")

/-- The script's complete, ordered operation list (source lines 7-111). -/
def scriptOps : List Op :=
  [op01, op02, op03, op04, op05, op06, op07, op08, op09, op10,
   op11, op12, op13, op14, op15, op16, op17, op18, op19, op20,
   op21, op22, op23, op24, op25, op26, op27, op28, op29, op30,
   op31, op32, op33, op34, op35, op36, op37, op38, op39, op40,
   op41, op42, op43, op44, op45]

/-- Apply an operation list to a whole document: split on newlines, run the
operations in order, join with newlines.  `none` models an uncaught
`IndexError`. -/
def applyDoc (content : List Char) (ops : List Op) : Option (List Char) :=
  match applyOps (splitNl content) ops with
  | none => none
  | some ls => some (joinNl ls)

/-- The source's `apply_changes` (source lines 3-113). -/
def apply_changes (content : List Char) : Option (List Char) :=
  applyDoc content scriptOps

/-- The surrounding program (source lines 115-121): read `processGPX`, run
`apply_changes`, write the result to `processGPX_new`.  The file system is a
map from paths to contents; a missing input file or a failing
`apply_changes` aborts with no write. -/
def runProgram (fs : String → Option (List Char)) :
    Option (String → Option (List Char)) :=
  match fs "processGPX" with
  | none => none
  | some content =>
    match apply_changes content with
    | none => none
    | some out => some (fun p => if p = "processGPX_new" then some out else fs p)

/-- Number of insert operations in a list. -/
def insCount : List Op → Nat
  | [] => 0
  | Op.ins _ _ :: ops => insCount ops + 1
  | Op.rep _ _ _ :: ops => insCount ops

/-- Bounds check for a run started on a document of `n` lines: every replace
must find its index strictly below the current length, and every insert
increases the current length by one. -/
def opsOk (n : Nat) : List Op → Bool
  | [] => true
  | Op.ins _ _ :: ops => opsOk (n + 1) ops
  | Op.rep i _ _ :: ops => decide (i < n) && opsOk n ops

/-- Position of the line sitting at position `p` after the given operations:
an insert at index `i` shifts the line one slot down exactly when `i ≤ p`. -/
def trackPos : List Op → Nat → Nat
  | [], p => p
  | Op.ins i _ :: ops, p => trackPos ops (if i ≤ p then p + 1 else p)
  | Op.rep _ _ _ :: ops, p => trackPos ops p

/-- Number of insertions that land at or before the (shifting) position of
the line initially at `p`. -/
def insAtOrBefore : List Op → Nat → Nat
  | [], _ => 0
  | Op.ins i _ :: ops, p =>
    if i ≤ p then insAtOrBefore ops (p + 1) + 1 else insAtOrBefore ops p
  | Op.rep _ _ _ :: ops, p => insAtOrBefore ops p

/-- The line at (shifting) position `p` is never the target of a replace. -/
def untouched : List Op → Nat → Bool
  | [], _ => true
  | Op.ins i _ :: ops, p => untouched ops (if i ≤ p then p + 1 else p)
  | Op.rep i _ _ :: ops, p => (p != i) && untouched ops p

/-- Does a character list contain a newline? -/
def hasNl : List Char → Bool
  | [] => false
  | c :: rest => c == '\n' || hasNl rest

/-- The text an operation adds to the document (insert content or replacement
text) is newline-free. -/
def opNoNl : Op → Bool
  | Op.ins _ c => !hasNl c
  | Op.rep _ _ r => !hasNl r

/-- Does `needle` start at the head of `hay`? (literal comparison) -/
def startsWith : List Char → List Char → Bool
  | [], _ => true
  | _ :: _, [] => false
  | a :: as, b :: bs => a == b && startsWith as bs

/-- Does `needle` occur (literally, as a contiguous substring) in `hay`? -/
def occursIn (needle : List Char) : List Char → Bool
  | [] => startsWith needle []
  | c :: rest => startsWith needle (c :: rest) || occursIn needle rest

/-- Operations strictly before the first replace. -/
def segA : List Op := [op01]

/-- Operations strictly between the first and second replace. -/
def segB : List Op := [op03, op04, op05, op06, op07, op08, op09, op10, op11, op12]

/-- Operations strictly between the second and third replace. -/
def segC : List Op := [op14]

/-- Operations strictly after the third replace. -/
def segD : List Op :=
  [op16, op17, op18, op19, op20, op21, op22, op23, op24, op25,
   op26, op27, op28, op29, op30, op31, op32, op33, op34, op35,
   op36, op37, op38, op39, op40, op41, op42, op43, op44, op45]

/-- A line built from alternating pieces: each pair contributes a filler
segment followed by one pattern occurrence, with a final tail. -/
def glue : List (List Char × List Char) → List Char → List Char
  | [], tail => tail
  | (seg, occ) :: rest, tail => seg ++ occ ++ glue rest tail

/-- The same line with every occurrence piece replaced by `repl`. -/
def glueRepl (repl : List Char) : List (List Char × List Char) → List Char → List Char
  | [], tail => tail
  | (seg, _) :: rest, tail => seg ++ repl ++ glueRepl repl rest tail

/-! ## Splitting and joining lines -/

theorem splitNl_ne_nil (s : List Char) : splitNl s ≠ [] := by
  cases s with
  | nil => simp [splitNl]
  | cons c rest =>
    simp only [splitNl]
    split
    · simp
    · cases h : splitNl rest <;> simp

theorem joinNl_splitNl (s : List Char) : joinNl (splitNl s) = s := by
  induction s with
  | nil => rfl
  | cons c rest ih =>
    simp only [splitNl]
    split
    · cases h : splitNl rest with
      | nil => exact absurd h (splitNl_ne_nil rest)
      | cons l ls =>
        rw [h] at ih
        simp_all [joinNl]
    · cases h : splitNl rest with
      | nil => exact absurd h (splitNl_ne_nil rest)
      | cons l ls =>
        rw [h] at ih
        cases ls with
        | nil => simp_all [joinNl]
        | cons l2 ls2 => simp_all [joinNl]

theorem splitNl_noNl (s : List Char) : ∀ l ∈ splitNl s, '\n' ∉ l := by
  induction s with
  | nil => simp [splitNl]
  | cons c rest ih =>
    intro l hl
    simp only [splitNl] at hl
    by_cases hc : c = '\n'
    · rw [if_pos hc] at hl
      rcases List.mem_cons.mp hl with h | h
      · simp [h]
      · exact ih l h
    · rw [if_neg hc] at hl
      cases h : splitNl rest with
      | nil => exact absurd h (splitNl_ne_nil rest)
      | cons x xs =>
        rw [h] at hl
        rcases List.mem_cons.mp hl with h2 | h2
        · subst h2
          intro hmem
          rcases List.mem_cons.mp hmem with h3 | h3
          · exact hc h3.symm
          · exact ih x (h ▸ List.mem_cons_self x xs) h3
        · exact ih l (h ▸ List.mem_cons_of_mem x h2)

theorem splitNl_of_noNl (l : List Char) (h : '\n' ∉ l) : splitNl l = [l] := by
  induction l with
  | nil => rfl
  | cons c rest ih =>
    have hc : ¬ c = '\n' := fun he => h (by simp [he])
    have h2 : '\n' ∉ rest := fun hm => h (List.mem_cons_of_mem _ hm)
    simp only [splitNl, if_neg hc]
    rw [ih h2]

theorem splitNl_append_nl (l t : List Char) (h : '\n' ∉ l) :
    splitNl (l ++ '\n' :: t) = l :: splitNl t := by
  induction l with
  | nil => simp [splitNl]
  | cons c rest ih =>
    have hc : ¬ c = '\n' := fun he => h (by simp [he])
    have h2 : '\n' ∉ rest := fun hm => h (List.mem_cons_of_mem _ hm)
    rw [show (c :: rest) ++ '\n' :: t = c :: (rest ++ '\n' :: t) from rfl]
    simp only [splitNl, if_neg hc]
    rw [ih h2]

theorem splitNl_joinNl (ls : List (List Char)) (hne : ls ≠ [])
    (h : ∀ l ∈ ls, '\n' ∉ l) : splitNl (joinNl ls) = ls := by
  induction ls with
  | nil => exact absurd rfl hne
  | cons l ls ih =>
    cases ls with
    | nil => simpa [joinNl] using splitNl_of_noNl l (h l (List.mem_cons_self _ _))
    | cons l2 ls2 =>
      simp only [joinNl]
      rw [splitNl_append_nl l _ (h l (List.mem_cons_self _ _))]
      rw [ih (by simp) (fun x hx => h x (List.mem_cons_of_mem l hx))]

theorem splitNl_replicate (n : Nat) :
    splitNl (List.replicate n '\n') = List.replicate (n + 1) [] := by
  induction n with
  | zero => rfl
  | succ n ih => simp [List.replicate, splitNl, ih]

/-! ## Properties of the substitution scan -/

theorem reSub_nil (pat : List PatElem) (repl : List Char) : reSub pat repl [] = [] := by
  simp only [reSub]

theorem reSub_cons_of_neg (pat : List PatElem) (repl : List Char) (c : Char) (rest : List Char)
    (h : ¬(matchesAt pat (c :: rest) = true ∧ 0 < pat.length)) :
    reSub pat repl (c :: rest) = c :: reSub pat repl rest := by
  simp only [reSub]
  rw [dif_neg h]

theorem reSub_cons_of_not_match (pat : List PatElem) (repl : List Char) (c : Char)
    (rest : List Char) (h : matchesAt pat (c :: rest) = false) :
    reSub pat repl (c :: rest) = c :: reSub pat repl rest :=
  reSub_cons_of_neg pat repl c rest (fun hc => by rw [h] at hc; exact Bool.false_ne_true hc.1)

theorem reSub_cons_of_match (pat : List PatElem) (repl : List Char) (c : Char) (rest : List Char)
    (h1 : matchesAt pat (c :: rest) = true) (h2 : 0 < pat.length) :
    reSub pat repl (c :: rest) = repl ++ reSub pat repl ((c :: rest).drop pat.length) := by
  simp only [reSub]
  rw [dif_pos ⟨h1, h2⟩]

theorem matchesAt_nil_false (pat : List PatElem) (h : 0 < pat.length) :
    matchesAt pat [] = false := by
  cases pat with
  | nil => simp at h
  | cons pe ps => cases pe <;> rfl

theorem matchesAt_append (pat : List PatElem) (s t : List Char) (h : pat.length ≤ s.length) :
    matchesAt pat (s ++ t) = matchesAt pat s := by
  induction pat generalizing s with
  | nil => rfl
  | cons pe ps ih =>
    cases s with
    | nil => simp at h
    | cons c cs =>
      have h2 : ps.length ≤ cs.length := by
        simp only [List.length_cons] at h; omega
      cases pe with
      | some a =>
        show (a == c && matchesAt ps (cs ++ t)) = (a == c && matchesAt ps cs)
        rw [ih cs h2]
      | none =>
        show (c != '\n' && matchesAt ps (cs ++ t)) = (c != '\n' && matchesAt ps cs)
        rw [ih cs h2]

theorem reSub_of_no_match (pat : List PatElem) (repl s : List Char)
    (h : ∀ k, matchesAt pat (s.drop k) = false) : reSub pat repl s = s := by
  induction s with
  | nil => exact reSub_nil pat repl
  | cons c rest ih =>
    have h0 : matchesAt pat (c :: rest) = false := by simpa using h 0
    rw [reSub_cons_of_not_match pat repl c rest h0]
    rw [ih (fun k => by simpa using h (k + 1))]

theorem reSub_append_avoid (ps : List PatElem) (repl : List Char) (c0 : Char)
    (seg rest : List Char) (hseg : ∀ ch ∈ seg, ch ≠ c0) :
    reSub (some c0 :: ps) repl (seg ++ rest) = seg ++ reSub (some c0 :: ps) repl rest := by
  induction seg with
  | nil => rfl
  | cons a as ih =>
    have ha : a ≠ c0 := hseg a (List.mem_cons_self a as)
    have hm : matchesAt (some c0 :: ps) (a :: (as ++ rest)) = false := by
      simp only [matchesAt, Bool.and_eq_false_iff]
      left
      exact beq_eq_false_iff_ne.mpr (fun he => ha he.symm)
    rw [List.cons_append, reSub_cons_of_not_match _ _ _ _ hm]
    rw [ih (fun ch hch => hseg ch (List.mem_cons_of_mem a hch))]
    rw [List.cons_append]

theorem reSub_append_match (pat : List PatElem) (repl occ rest : List Char)
    (hp : 0 < pat.length) (hm : matchesAt pat occ = true) (hlen : occ.length = pat.length) :
    reSub pat repl (occ ++ rest) = repl ++ reSub pat repl rest := by
  cases occ with
  | nil => rw [List.length_nil] at hlen; omega
  | cons c cs =>
    have hm2 : matchesAt pat ((c :: cs) ++ rest) = true := by
      rw [matchesAt_append pat (c :: cs) rest (le_of_eq hlen.symm)]
      exact hm
    rw [List.cons_append, reSub_cons_of_match pat repl c (cs ++ rest) (by simpa using hm2) hp]
    rw [show c :: (cs ++ rest) = (c :: cs) ++ rest from rfl]
    rw [List.drop_left' hlen]

theorem reSub_mem_aux (pat : List PatElem) (repl : List Char) :
    ∀ n, ∀ s : List Char, s.length ≤ n → ∀ x ∈ reSub pat repl s, x ∈ s ∨ x ∈ repl := by
  intro n
  induction n with
  | zero =>
    intro s hs x hx
    have : s = [] := List.length_eq_zero.mp (Nat.le_zero.mp hs)
    subst this
    rw [reSub_nil] at hx
    exact absurd hx (List.not_mem_nil x)
  | succ n ih =>
    intro s hs x hx
    cases s with
    | nil =>
      rw [reSub_nil] at hx
      exact absurd hx (List.not_mem_nil x)
    | cons c rest =>
      by_cases hm : matchesAt pat (c :: rest) = true ∧ 0 < pat.length
      · rw [reSub_cons_of_match pat repl c rest hm.1 hm.2] at hx
        rcases List.mem_append.mp hx with h | h
        · exact Or.inr h
        · have hlen : ((c :: rest).drop pat.length).length ≤ n := by
            simp only [List.length_drop, List.length_cons]
            simp only [List.length_cons] at hs
            omega
          rcases ih _ hlen x h with h2 | h2
          · exact Or.inl (List.drop_subset _ _ h2)
          · exact Or.inr h2
      · rw [reSub_cons_of_neg pat repl c rest hm] at hx
        rcases List.mem_cons.mp hx with h | h
        · exact Or.inl (h ▸ List.mem_cons_self c rest)
        · have hlen : rest.length ≤ n := by
            simp only [List.length_cons] at hs; omega
          rcases ih rest hlen x h with h2 | h2
          · exact Or.inl (List.mem_cons_of_mem c h2)
          · exact Or.inr h2

theorem reSub_noNl (pat : List PatElem) (repl s : List Char)
    (h1 : '\n' ∉ s) (h2 : '\n' ∉ repl) : '\n' ∉ reSub pat repl s := by
  intro hmem
  rcases reSub_mem_aux pat repl s.length s (le_refl _) '\n' hmem with h | h
  · exact h1 h
  · exact h2 h

/-! ## Properties of insertion and the operation runner -/

theorem pyInsert_length {α : Type} (l : List α) (i : Nat) (x : α) :
    (pyInsert l i x).length = l.length + 1 := by
  simp only [pyInsert, List.length_append, List.length_take, List.length_cons,
    List.length_drop]
  omega

theorem pyInsert_of_le {α : Type} (l : List α) (i : Nat) (x : α) (h : l.length ≤ i) :
    pyInsert l i x = l ++ [x] := by
  rw [pyInsert, List.take_of_length_le h, List.drop_eq_nil_of_le h]

theorem pyInsert_getElem_shift {α : Type} (l : List α) (i : Nat) (x : α) (p : Nat)
    (hp : p < l.length) :
    (pyInsert l i x)[if i ≤ p then p + 1 else p]? = l[p]? := by
  by_cases hip : i ≤ p
  · rw [if_pos hip]
    have hge : (l.take i).length ≤ p + 1 := by
      rw [List.length_take]; omega
    rw [pyInsert, List.getElem?_append_right hge]
    have he : p + 1 - (l.take i).length = (p - i) + 1 := by
      rw [List.length_take]; omega
    rw [he, List.getElem?_cons_succ, List.getElem?_drop]
    congr 1
    omega
  · rw [if_neg hip]
    have hlt : p < (l.take i).length := by
      rw [List.length_take]; omega
    rw [pyInsert, List.getElem?_append_left hlt,
      List.getElem?_take_of_lt (by omega : p < i)]

theorem pyInsert_getElem_self {α : Type} (l : List α) (i : Nat) (x : α)
    (h : i ≤ l.length) : (pyInsert l i x)[i]? = some x := by
  have hlen : (l.take i).length = i := by rw [List.length_take]; omega
  have hge : (l.take i).length ≤ i := le_of_eq hlen
  rw [pyInsert, List.getElem?_append_right hge, hlen]
  simp

theorem pyInsert_mem {α : Type} (l : List α) (i : Nat) (x : α) (y : α)
    (h : y ∈ pyInsert l i x) : y ∈ l ∨ y = x := by
  rw [pyInsert] at h
  rcases List.mem_append.mp h with h2 | h2
  · exact Or.inl (List.take_subset i l h2)
  · rcases List.mem_cons.mp h2 with h3 | h3
    · exact Or.inr h3
    · exact Or.inl (List.drop_subset i l h3)

theorem applyOps_ok (ops : List Op) : ∀ l, opsOk l.length ops = true →
    ∃ l2, applyOps l ops = some l2 ∧ l2.length = l.length + insCount ops := by
  induction ops with
  | nil =>
    intro l _
    exact ⟨l, rfl, by simp [insCount]⟩
  | cons op ops ih =>
    intro l hok
    cases op with
    | ins i c =>
      simp only [opsOk] at hok
      have h1 : (pyInsert l i c).length = l.length + 1 := pyInsert_length l i c
      rw [← h1] at hok
      obtain ⟨l2, h2, h3⟩ := ih (pyInsert l i c) hok
      refine ⟨l2, ?_, ?_⟩
      · simp only [applyOps, applyOp]
        exact h2
      · rw [h3, h1]
        simp only [insCount]
        omega
    | rep i pat repl =>
      simp only [opsOk, Bool.and_eq_true, decide_eq_true_eq] at hok
      obtain ⟨hi, hok2⟩ := hok
      have hget : l[i]? = some l[i] := List.getElem?_eq_getElem hi
      have hlen : (l.set i (reSub pat repl l[i])).length = l.length := List.length_set l i _
      rw [← hlen] at hok2
      obtain ⟨l2, h2, h3⟩ := ih _ hok2
      refine ⟨l2, ?_, ?_⟩
      · simp only [applyOps, applyOp, hget]
        exact h2
      · rw [h3, hlen]
        simp [insCount]

theorem applyOps_none (ops : List Op) : ∀ l, opsOk l.length ops = false →
    applyOps l ops = none := by
  induction ops with
  | nil =>
    intro l h
    simp [opsOk] at h
  | cons op ops ih =>
    intro l hbad
    cases op with
    | ins i c =>
      simp only [opsOk] at hbad
      simp only [applyOps, applyOp]
      exact ih (pyInsert l i c) (by rw [pyInsert_length]; exact hbad)
    | rep i pat repl =>
      by_cases hi : i < l.length
      · simp only [opsOk, Bool.and_eq_false_iff, decide_eq_false_iff_not] at hbad
        rcases hbad with h | h
        · exact absurd hi h
        · have hget : l[i]? = some l[i] := List.getElem?_eq_getElem hi
          simp only [applyOps, applyOp, hget]
          exact ih _ (by rw [List.length_set]; exact h)
      · have hget : l[i]? = none := List.getElem?_eq_none (by omega)
        simp only [applyOps, applyOp, hget]

theorem opsOk_mono (ops : List Op) : ∀ n m, n ≤ m → opsOk n ops = true →
    opsOk m ops = true := by
  induction ops with
  | nil => intro n m _ _; rfl
  | cons op ops ih =>
    intro n m hnm hok
    cases op with
    | ins i c => exact ih (n + 1) (m + 1) (by omega) hok
    | rep i pat repl =>
      simp only [opsOk, Bool.and_eq_true, decide_eq_true_eq] at hok ⊢
      exact ⟨by omega, ih n m hnm hok.2⟩

theorem opsOk_rep_bound (i : Nat) (pat : List PatElem) (repl : List Char) (suf : List Op) :
    ∀ pre n, opsOk n (pre ++ Op.rep i pat repl :: suf) = true → i < n + insCount pre := by
  intro pre
  induction pre with
  | nil =>
    intro n h
    simp only [List.nil_append, opsOk, Bool.and_eq_true, decide_eq_true_eq] at h
    simpa [insCount] using h.1
  | cons op pre ih =>
    intro n h
    cases op with
    | ins j c =>
      have h2 := ih (n + 1) h
      simp only [insCount]
      omega
    | rep j patj replj =>
      simp only [List.cons_append, opsOk, Bool.and_eq_true] at h
      have h2 := ih n h.2
      simpa [insCount] using h2

/-! ## Tracking line positions through the operation list -/

theorem trackPos_append (xs : List Op) : ∀ ys p,
    trackPos (xs ++ ys) p = trackPos ys (trackPos xs p) := by
  induction xs with
  | nil => intro ys p; rfl
  | cons op xs ih =>
    intro ys p
    cases op with
    | ins i c => exact ih ys (if i ≤ p then p + 1 else p)
    | rep i pat repl => exact ih ys p

theorem untouched_append (xs : List Op) : ∀ ys p,
    untouched (xs ++ ys) p = (untouched xs p && untouched ys (trackPos xs p)) := by
  induction xs with
  | nil => intro ys p; simp [untouched, trackPos]
  | cons op xs ih =>
    intro ys p
    cases op with
    | ins i c => exact ih ys (if i ≤ p then p + 1 else p)
    | rep i pat repl =>
      show ((p != i) && untouched (xs ++ ys) p) = (((p != i) && untouched xs p) && _)
      rw [ih ys p, Bool.and_assoc]
      rfl

theorem untouched_rep_cons (i : Nat) (pat : List PatElem) (repl : List Char) (ops : List Op)
    (p : Nat) : untouched (Op.rep i pat repl :: ops) p = ((p != i) && untouched ops p) := rfl

theorem trackPos_strictMono (ops : List Op) : StrictMono (trackPos ops) := by
  induction ops with
  | nil => exact fun a b h => h
  | cons op ops ih =>
    cases op with
    | ins i c =>
      intro a b hab
      have hstep : (if i ≤ a then a + 1 else a) < (if i ≤ b then b + 1 else b) := by
        split_ifs <;> omega
      exact ih hstep
    | rep i pat repl => exact fun a b hab => ih hab

theorem trackPos_eq_insAtOrBefore (ops : List Op) : ∀ p,
    trackPos ops p = p + insAtOrBefore ops p := by
  induction ops with
  | nil => intro p; rfl
  | cons op ops ih =>
    intro p
    cases op with
    | ins i c =>
      by_cases hip : i ≤ p
      · show trackPos ops (if i ≤ p then p + 1 else p) = p + insAtOrBefore (Op.ins i c :: ops) p
        rw [if_pos hip, ih (p + 1)]
        show p + 1 + insAtOrBefore ops (p + 1) =
          p + (if i ≤ p then insAtOrBefore ops (p + 1) + 1 else insAtOrBefore ops p)
        rw [if_pos hip]
        omega
      · show trackPos ops (if i ≤ p then p + 1 else p) = p + insAtOrBefore (Op.ins i c :: ops) p
        rw [if_neg hip, ih p]
        show p + insAtOrBefore ops p =
          p + (if i ≤ p then insAtOrBefore ops (p + 1) + 1 else insAtOrBefore ops p)
        rw [if_neg hip]
    | rep i pat repl => exact ih p

theorem applyOps_frame (ops : List Op) : ∀ l l2 p, p < l.length →
    applyOps l ops = some l2 → untouched ops p = true →
    l2[trackPos ops p]? = l[p]? := by
  induction ops with
  | nil =>
    intro l l2 p _ happ _
    simp only [applyOps, Option.some.injEq] at happ
    subst happ
    rfl
  | cons op ops ih =>
    intro l l2 p hp happ hu
    cases op with
    | ins i c =>
      simp only [applyOps, applyOp] at happ
      have hp2 : (if i ≤ p then p + 1 else p) < (pyInsert l i c).length := by
        rw [pyInsert_length]
        split_ifs <;> omega
      have h2 := ih (pyInsert l i c) l2 _ hp2 happ hu
      rw [show trackPos (Op.ins i c :: ops) p
          = trackPos ops (if i ≤ p then p + 1 else p) from rfl]
      rw [h2, pyInsert_getElem_shift l i c p hp]
    | rep i pat repl =>
      rw [untouched_rep_cons, Bool.and_eq_true, bne_iff_ne] at hu
      obtain ⟨hne, hu2⟩ := hu
      simp only [applyOps, applyOp] at happ
      cases hget : l[i]? with
      | none =>
        rw [hget] at happ
        cases happ
      | some s =>
        rw [hget] at happ
        have hp2 : p < (l.set i (reSub pat repl s)).length := by
          rw [List.length_set]
          exact hp
        have h2 := ih _ l2 p hp2 happ hu2
        rw [show trackPos (Op.rep i pat repl :: ops) p = trackPos ops p from rfl, h2]
        exact List.getElem?_set_ne (fun he => hne he.symm)

theorem applyOps_length (ops : List Op) : ∀ l l2, applyOps l ops = some l2 →
    l2.length = l.length + insCount ops := by
  induction ops with
  | nil =>
    intro l l2 happ
    simp only [applyOps, Option.some.injEq] at happ
    subst happ
    simp [insCount]
  | cons op ops ih =>
    intro l l2 happ
    cases op with
    | ins i c =>
      simp only [applyOps, applyOp] at happ
      have h2 := ih _ l2 happ
      rw [h2, pyInsert_length]
      simp only [insCount]
      omega
    | rep i pat repl =>
      simp only [applyOps, applyOp] at happ
      cases hget : l[i]? with
      | none => rw [hget] at happ; cases happ
      | some s =>
        rw [hget] at happ
        have h2 := ih _ l2 happ
        rw [h2, List.length_set]
        simp [insCount]

theorem hasNl_eq_false_iff (s : List Char) : hasNl s = false ↔ '\n' ∉ s := by
  induction s with
  | nil => simp [hasNl]
  | cons c rest ih =>
    simp only [hasNl, Bool.or_eq_false_iff, beq_eq_false_iff_ne, ne_eq, List.mem_cons,
      not_or, ih]
    constructor
    · intro h
      exact ⟨fun he => h.1 he.symm, h.2⟩
    · intro h
      exact ⟨fun he => h.1 he.symm, h.2⟩

theorem applyOps_noNl (ops : List Op) : ∀ l l2, (∀ s ∈ l, '\n' ∉ s) →
    (∀ op ∈ ops, opNoNl op = true) → applyOps l ops = some l2 →
    ∀ s ∈ l2, '\n' ∉ s := by
  induction ops with
  | nil =>
    intro l l2 hl _ happ
    simp only [applyOps, Option.some.injEq] at happ
    subst happ
    exact hl
  | cons op ops ih =>
    intro l l2 hl hops happ
    cases op with
    | ins i c =>
      simp only [applyOps, applyOp] at happ
      have hc : '\n' ∉ c := by
        have := hops (Op.ins i c) (List.mem_cons_self _ _)
        simp only [opNoNl, Bool.not_eq_true'] at this
        exact (hasNl_eq_false_iff c).mp this
      refine ih _ l2 ?_ (fun o ho => hops o (List.mem_cons_of_mem _ ho)) happ
      intro s hs
      rcases pyInsert_mem l i c s hs with h | h
      · exact hl s h
      · exact h ▸ hc
    | rep i pat repl =>
      simp only [applyOps, applyOp] at happ
      cases hget : l[i]? with
      | none => rw [hget] at happ; cases happ
      | some s0 =>
        rw [hget] at happ
        have hr : '\n' ∉ repl := by
          have := hops (Op.rep i pat repl) (List.mem_cons_self _ _)
          simp only [opNoNl, Bool.not_eq_true'] at this
          exact (hasNl_eq_false_iff repl).mp this
        have hs0 : s0 ∈ l := by
          have hi : i < l.length := by
            by_contra hcon
            rw [List.getElem?_eq_none (by omega)] at hget
            cases hget
          have : l[i] = s0 := by
            have h2 : l[i]? = some l[i] := List.getElem?_eq_getElem hi
            rw [h2] at hget
            exact (Option.some.injEq _ _).mp hget.symm |>.symm
          exact this ▸ List.getElem_mem hi
        refine ih _ l2 ?_ (fun o ho => hops o (List.mem_cons_of_mem _ ho)) happ
        intro s hs
        rcases List.mem_or_eq_of_mem_set hs with h | h
        · exact hl s h
        · rw [h]
          exact reSub_noNl pat repl s0 (hl s0 hs0) hr

/-! ## Concrete facts about the script's operation list -/

theorem scriptOps_decomp :
    scriptOps = segA ++ op02 :: (segB ++ op13 :: (segC ++ op15 :: segD)) := rfl

theorem insCount_scriptOps : insCount scriptOps = 42 := rfl

theorem opsOk_scriptOps_5063 : opsOk 5063 scriptOps = true := rfl

theorem opsOk_scriptOps_iff (n : Nat) : opsOk n scriptOps = true ↔ 5063 ≤ n := by
  constructor
  · intro h
    have hb := opsOk_rep_bound 5074 (litPat "perl-11-after-arcfit.txt")
      (chars "perl-11-arcfit-added.txt")
      (segD)
      [op01, op02, op03, op04, op05, op06, op07, op08, op09, op10, op11, op12, op13, op14]
      n (by exact h)
    have hc : insCount [op01, op02, op03, op04, op05, op06, op07, op08, op09, op10,
      op11, op12, op13, op14] = 12 := rfl
    rw [hc] at hb
    omega
  · intro h
    exact opsOk_mono scriptOps 5063 n h opsOk_scriptOps_5063

theorem untouched_segA (p : Nat) : untouched segA p = true := rfl

theorem untouched_segB (p : Nat) : untouched segB p = true := rfl

theorem untouched_segC (p : Nat) : untouched segC p = true := rfl

theorem untouched_segD (p : Nat) : untouched segD p = true := rfl

theorem trackPos_segA_4847 : trackPos segA 4847 = 4848 := rfl

theorem trackPos_segAB_5057 : trackPos segB (trackPos segA 5057) = 5068 := rfl

theorem trackPos_segABC_5062 :
    trackPos segC (trackPos segB (trackPos segA 5062)) = 5074 := rfl

theorem scriptOps_untouched (p : Nat) (h1 : p ≠ 4847) (h2 : p ≠ 5057) (h3 : p ≠ 5062) :
    untouched scriptOps p = true := by
  rw [scriptOps_decomp]
  simp only [op02, op13, op15]
  rw [untouched_append, untouched_segA, Bool.true_and, untouched_rep_cons]
  rw [untouched_append, untouched_segB, Bool.true_and, untouched_rep_cons]
  rw [untouched_append, untouched_segC, Bool.true_and, untouched_rep_cons]
  rw [untouched_segD, Bool.and_true]
  simp only [Bool.and_eq_true, bne_iff_ne, ne_eq]
  have injA := (trackPos_strictMono segA).injective
  have injB := (trackPos_strictMono segB).injective
  have injC := (trackPos_strictMono segC).injective
  refine ⟨fun hq => h1 ?_, fun hq => h2 ?_, fun hq => h3 ?_⟩
  · exact injA (hq.trans trackPos_segA_4847.symm)
  · exact injA (injB (hq.trans trackPos_segAB_5057.symm))
  · exact injA (injB (injC (hq.trans trackPos_segABC_5062.symm)))

set_option maxHeartbeats 2000000 in
theorem scriptOps_all_noNl : scriptOps.all opNoNl = true := rfl

theorem scriptOps_noNl : ∀ op ∈ scriptOps, opNoNl op = true := by
  have h := scriptOps_all_noNl
  rw [List.all_eq_true] at h
  exact h

theorem set_getElem_self_eq (l : List (List Char)) (i : Nat) (hi : i < l.length) :
    l.set i l[i] = l := by
  apply List.ext_getElem?
  intro n
  by_cases hn : i = n
  · subst hn
    rw [List.getElem?_set_eq_of_lt _ hi]
    exact (List.getElem?_eq_getElem hi).symm
  · exact List.getElem?_set_ne hn

/-- Packaged success facts for a run of the script on an input with at least
5063 lines: the operation pass succeeds, `apply_changes` returns the joined
result, the output splits back into exactly the produced lines, and the line
count grows by the number of insertions (42). -/
theorem apply_changes_spec (content : List Char) (h : 5063 ≤ (splitNl content).length) :
    ∃ ls, applyOps (splitNl content) scriptOps = some ls ∧
      apply_changes content = some (joinNl ls) ∧
      splitNl (joinNl ls) = ls ∧
      ls.length = (splitNl content).length + 42 := by
  have hok : opsOk (splitNl content).length scriptOps = true :=
    (opsOk_scriptOps_iff _).mpr h
  obtain ⟨ls, happ, hlen⟩ := applyOps_ok scriptOps (splitNl content) hok
  rw [insCount_scriptOps] at hlen
  have hne : ls ≠ [] := by
    intro he
    rw [he] at hlen
    simp at hlen
  have hnoNl : ∀ s ∈ ls, '\n' ∉ s :=
    applyOps_noNl scriptOps (splitNl content) ls (splitNl_noNl content) scriptOps_noNl happ
  refine ⟨ls, happ, ?_, splitNl_joinNl ls hne hnoNl, hlen⟩
  simp only [apply_changes, applyDoc, happ]

/-! ## Claims -/

/-- C1 counterexample: the claim says an out-of-range index on either
operation type fails fatally and is never silently clamped.  But an insert
with index 3 into a one-line document (index out of range, since 3 > 1)
succeeds and is silently clamped to an append: the whole pass completes with
no error. -/
theorem c1_counterexample :
    ([chars "a"] : List (List Char)).length < 3 ∧
    applyOps [chars "a"] [Op.ins 3 (chars "x")] = some [chars "a", chars "x"] :=
  ⟨by decide, rfl⟩

/-- C1 (amended): an out-of-range index is fatal only for a Replace — it
aborts the entire pass — while an Insert whose index is at or beyond the
current length succeeds silently, clamped to an append. -/
theorem c1_out_of_range (l : List (List Char)) (i : Nat) (pat : List PatElem)
    (repl c : List Char) (ops : List Op) (h : l.length ≤ i) :
    applyOps l (Op.rep i pat repl :: ops) = none ∧
    applyOp l (Op.ins i c) = some (l ++ [c]) := by
  constructor
  · have hget : l[i]? = none := List.getElem?_eq_none h
    simp only [applyOps, applyOp, hget]
  · simp only [applyOp, pyInsert_of_le l i c h]

/-- C1 witness: the amended claim at a concrete one-line document and
index 5. -/
theorem c1_out_of_range_witness :
    ([chars "a"] : List (List Char)).length ≤ 5 ∧
    (applyOps [chars "a"] (Op.rep 5 (litPat "x") (chars "y") :: []) = none ∧
     applyOp [chars "a"] (Op.ins 5 (chars "z")) = some ([chars "a"] ++ [chars "z"])) :=
  ⟨by decide,
   c1_out_of_range [chars "a"] 5 (litPat "x") (chars "y") (chars "z") [] (by decide)⟩

/-- C2: on any input with at least 5063 lines, `apply_changes` succeeds and
the output's line count is the input's line count plus 42, the number of
insert operations in the script. -/
theorem c2_line_count (content : List Char) (h : 5063 ≤ (splitNl content).length) :
    insCount scriptOps = 42 ∧
    ∃ out, apply_changes content = some out ∧
      (splitNl out).length = (splitNl content).length + 42 := by
  obtain ⟨ls, happ, hsome, hsplit, hlen⟩ := apply_changes_spec content h
  exact ⟨insCount_scriptOps, joinNl ls, hsome, by rw [hsplit, hlen]⟩

theorem repl_content_lines : (splitNl (List.replicate 5062 '\n')).length = 5063 := by
  rw [splitNl_replicate]
  exact List.length_replicate _ _

/-- C2 witness: the claim at the concrete 5063-line input consisting of 5062
newline characters. -/
theorem c2_line_count_witness :
    5063 ≤ (splitNl (List.replicate 5062 '\n')).length ∧
    (insCount scriptOps = 42 ∧
     ∃ out, apply_changes (List.replicate 5062 '\n') = some out ∧
       (splitNl out).length = (splitNl (List.replicate 5062 '\n')).length + 42) :=
  ⟨le_of_eq repl_content_lines.symm,
   c2_line_count (List.replicate 5062 '\n') (le_of_eq repl_content_lines.symm)⟩

/-- C6: splitting any string on newlines and rejoining the unmodified lines
with newlines reproduces the string exactly; hence applying an empty
operation list to a document is the identity. -/
theorem c6_empty_ops_identity (content : List Char) :
    joinNl (splitNl content) = content ∧ applyDoc content [] = some content := by
  refine ⟨joinNl_splitNl content, ?_⟩
  simp only [applyDoc, applyOps]
  rw [joinNl_splitNl]

/-- C9: `apply_changes` fails (an uncaught `IndexError`) exactly when the
input has fewer than 5063 lines; an Insert never fails (Python clamps its
index), and a Replace fails exactly when its index is at or beyond the
current length.  The three replaces execute after 1, 11 and 12 inserts at
indices 4848, 5068 and 5074, so they require original line counts of at
least 4848, 5058 and 5063 respectively, the last being the binding
constraint. -/
theorem c9_failure_iff (content : List Char) :
    (apply_changes content = none ↔ (splitNl content).length < 5063) ∧
    (∀ l (i : Nat) (c : List Char), (applyOp l (Op.ins i c)).isSome = true) ∧
    (∀ l (i : Nat) (pat : List PatElem) (repl : List Char),
      applyOp l (Op.rep i pat repl) = none ↔ l.length ≤ i) := by
  refine ⟨⟨?_, ?_⟩, ?_, ?_⟩
  · intro hnone
    by_contra hcon
    have hN : 5063 ≤ (splitNl content).length := by omega
    obtain ⟨ls, happ, hsome, _, _⟩ := apply_changes_spec content hN
    rw [hnone] at hsome
    cases hsome
  · intro hlt
    have hbad : opsOk (splitNl content).length scriptOps = false := by
      cases hok : opsOk (splitNl content).length scriptOps
      · rfl
      · exact absurd ((opsOk_scriptOps_iff _).mp hok) (by omega)
    have hnone := applyOps_none scriptOps (splitNl content) hbad
    simp only [apply_changes, applyDoc, hnone]
  · intro l i c
    simp [applyOp]
  · intro l i pat repl
    constructor
    · intro hnone
      by_contra hcon
      have hi : i < l.length := by omega
      have hget : l[i]? = some l[i] := List.getElem?_eq_getElem hi
      simp only [applyOp, hget] at hnone
      cases hnone
    · intro hle
      have hget : l[i]? = none := List.getElem?_eq_none hle
      simp only [applyOp, hget]

/-- C4: inserting `c` at `i` into a document of length N with `0 ≤ i ≤ N`
yields a document of length N+1 with `c` at position `i`, lines below `i`
unmoved, and lines at or above `i` shifted down by one. -/
theorem c4_insert_spec (l : List (List Char)) (i : Nat) (c : List Char)
    (h : i ≤ l.length) :
    (pyInsert l i c).length = l.length + 1 ∧
    (pyInsert l i c)[i]? = some c ∧
    (∀ p, p < i → (pyInsert l i c)[p]? = l[p]?) ∧
    (∀ p, i ≤ p → p < l.length → (pyInsert l i c)[p + 1]? = l[p]?) := by
  refine ⟨pyInsert_length l i c, pyInsert_getElem_self l i c h, ?_, ?_⟩
  · intro p hp
    have h2 := pyInsert_getElem_shift l i c p (by omega)
    rwa [if_neg (by omega)] at h2
  · intro p hp1 hp2
    have h2 := pyInsert_getElem_shift l i c p hp2
    rwa [if_pos hp1] at h2

/-- C4 witness: the insert specification at `["a", "b"]`, index 1, line "x". -/
theorem c4_insert_spec_witness :
    1 ≤ ([chars "a", chars "b"] : List (List Char)).length ∧
    ((pyInsert [chars "a", chars "b"] 1 (chars "x")).length
        = ([chars "a", chars "b"] : List (List Char)).length + 1 ∧
     (pyInsert [chars "a", chars "b"] 1 (chars "x"))[1]? = some (chars "x") ∧
     (∀ p, p < 1 →
       (pyInsert [chars "a", chars "b"] 1 (chars "x"))[p]?
         = ([chars "a", chars "b"] : List (List Char))[p]?) ∧
     (∀ p, 1 ≤ p → p < ([chars "a", chars "b"] : List (List Char)).length →
       (pyInsert [chars "a", chars "b"] 1 (chars "x"))[p + 1]?
         = ([chars "a", chars "b"] : List (List Char))[p]?)) :=
  ⟨by decide, c4_insert_spec [chars "a", chars "b"] 1 (chars "x") (by decide)⟩

/-- C5: on any input with at least 5063 lines, every input line other than
the three replace targets (original positions 4847, 5057 and 5062) appears
in the output byte-identical, at its original position shifted down by the
number of insertions landing at or before it. -/
theorem c5_frame (content : List Char) (h : 5063 ≤ (splitNl content).length) :
    ∃ out, apply_changes content = some out ∧
      ∀ p, p < (splitNl content).length → p ≠ 4847 → p ≠ 5057 → p ≠ 5062 →
        (splitNl out)[p + insAtOrBefore scriptOps p]? = (splitNl content)[p]? := by
  obtain ⟨ls, happ, hsome, hsplit, _⟩ := apply_changes_spec content h
  refine ⟨joinNl ls, hsome, ?_⟩
  intro p hp h1 h2 h3
  rw [hsplit, ← trackPos_eq_insAtOrBefore]
  exact applyOps_frame scriptOps (splitNl content) ls p hp happ
    (scriptOps_untouched p h1 h2 h3)

/-- C5 witness: the frame property at the concrete 5063-line input of 5062
newline characters. -/
theorem c5_frame_witness :
    5063 ≤ (splitNl (List.replicate 5062 '\n')).length ∧
    (∃ out, apply_changes (List.replicate 5062 '\n') = some out ∧
      ∀ p, p < (splitNl (List.replicate 5062 '\n')).length →
        p ≠ 4847 → p ≠ 5057 → p ≠ 5062 →
          (splitNl out)[p + insAtOrBefore scriptOps p]?
            = (splitNl (List.replicate 5062 '\n'))[p]?) :=
  ⟨le_of_eq repl_content_lines.symm,
   c5_frame (List.replicate 5062 '\n') (le_of_eq repl_content_lines.symm)⟩

/-- C7: `apply_changes` is not idempotent — whenever it succeeds on an input,
running it again on its own output succeeds too but produces a different
document (the line counts differ by 42). -/
theorem c7_not_idempotent (content : List Char)
    (h : ∃ out, apply_changes content = some out) :
    ∀ out, apply_changes content = some out →
      ∃ out2, apply_changes out = some out2 ∧ out2 ≠ out := by
  intro out hout
  have hN : 5063 ≤ (splitNl content).length := by
    by_contra hcon
    have hbad : opsOk (splitNl content).length scriptOps = false := by
      cases hok : opsOk (splitNl content).length scriptOps
      · rfl
      · exact absurd ((opsOk_scriptOps_iff _).mp hok) (by omega)
    have hnone := applyOps_none scriptOps (splitNl content) hbad
    simp only [apply_changes, applyDoc, hnone] at hout
    cases hout
  obtain ⟨ls, happ, hsome, hsplit, hlen⟩ := apply_changes_spec content hN
  have hout_eq : out = joinNl ls := by
    rw [hout] at hsome
    exact Option.some.inj hsome
  have hN2 : 5063 ≤ (splitNl out).length := by
    rw [hout_eq, hsplit, hlen]
    omega
  obtain ⟨ls2, happ2, hsome2, hsplit2, hlen2⟩ := apply_changes_spec out hN2
  refine ⟨joinNl ls2, hsome2, ?_⟩
  intro heq
  have hcong := congrArg (fun s => (splitNl s).length) heq
  simp only at hcong
  rw [hsplit2, hlen2] at hcong
  omega

/-- C7 witness: the non-idempotence claim at the concrete 5063-line input of
5062 newline characters, on which the first application succeeds. -/
theorem c7_not_idempotent_witness :
    (∃ out, apply_changes (List.replicate 5062 '\n') = some out) ∧
    (∀ out, apply_changes (List.replicate 5062 '\n') = some out →
      ∃ out2, apply_changes out = some out2 ∧ out2 ≠ out) := by
  have hN : 5063 ≤ (splitNl (List.replicate 5062 '\n')).length :=
    le_of_eq repl_content_lines.symm
  have hex : ∃ out, apply_changes (List.replicate 5062 '\n') = some out := by
    obtain ⟨ls, _, hsome, _, _⟩ := apply_changes_spec (List.replicate 5062 '\n') hN
    exact ⟨joinNl ls, hsome⟩
  exact ⟨hex, c7_not_idempotent (List.replicate 5062 '\n') hex⟩

/-- C8: the program reads `processGPX` and writes only `processGPX_new`; on a
successful run every other path — in particular the input document — is left
exactly as it was.  (In the model, as in Python, `apply_changes` itself is a
pure function of the immutable input string.) -/
theorem c8_input_preserved (fs : String → Option (List Char)) (content : List Char)
    (hread : fs "processGPX" = some content)
    (h : 5063 ≤ (splitNl content).length) :
    ∃ fs2, runProgram fs = some fs2 ∧
      (∀ p, p ≠ "processGPX_new" → fs2 p = fs p) ∧
      fs2 "processGPX" = some content := by
  obtain ⟨ls, happ, hsome, hsplit, hlen⟩ := apply_changes_spec content h
  refine ⟨fun p => if p = "processGPX_new" then some (joinNl ls) else fs p, ?_, ?_, ?_⟩
  · simp only [runProgram, hread, hsome]
  · intro p hp
    simp only [if_neg hp]
  · have hne : ("processGPX" : String) ≠ "processGPX_new" := by decide
    simp only [if_neg hne, hread]

/-- C8 witness: the preservation claim on a concrete file system holding a
5063-line `processGPX`. -/
theorem c8_input_preserved_witness :
    ((fun p => if p = "processGPX" then some (List.replicate 5062 '\n') else none)
        "processGPX" = some (List.replicate 5062 '\n')) ∧
    5063 ≤ (splitNl (List.replicate 5062 '\n')).length ∧
    (∃ fs2, runProgram
        (fun p => if p = "processGPX" then some (List.replicate 5062 '\n') else none)
        = some fs2 ∧
      (∀ p, p ≠ "processGPX_new" →
        fs2 p = (fun q => if q = "processGPX"
          then some (List.replicate 5062 '\n') else none) p) ∧
      fs2 "processGPX" = some (List.replicate 5062 '\n')) :=
  ⟨rfl, le_of_eq repl_content_lines.symm,
   c8_input_preserved
     (fun p => if p = "processGPX" then some (List.replicate 5062 '\n') else none)
     (List.replicate 5062 '\n') rfl (le_of_eq repl_content_lines.symm)⟩

/-- C3 counterexample: the claim asserts that a Replace whose searched
filename string is absent from the target line leaves it unchanged.  But the
script's regex patterns contain an unescaped `.`, which matches any
character: the line "perl-00-originalXtxt" does not contain the filename
string "perl-00-original.txt", yet the first Replace rewrites it. -/
theorem c3_counterexample :
    occursIn (chars "perl-00-original.txt") (chars "perl-00-originalXtxt") = false ∧
    applyOp [chars "perl-00-originalXtxt"]
        (Op.rep 0 (litPat "perl-00-original.txt") (chars "perl-00-initial-points.txt"))
      = some [chars "perl-00-initial-points.txt"] := by
  constructor
  · decide
  · have h1 : reSub (litPat "perl-00-original.txt") (chars "perl-00-initial-points.txt")
        (chars "perl-00-originalXtxt") = chars "perl-00-initial-points.txt" := by
      have h2 := reSub_append_match (litPat "perl-00-original.txt")
        (chars "perl-00-initial-points.txt") (chars "perl-00-originalXtxt") []
        (by decide) (by decide) (by decide)
      rw [List.append_nil] at h2
      rw [h2, reSub_nil, List.append_nil]
    have hget : ([chars "perl-00-originalXtxt"] : List (List Char))[0]?
        = some (chars "perl-00-originalXtxt") := rfl
    simp only [applyOp, hget, h1]
    rfl

/-- C3 (amended): a Replace whose regex pattern matches at no position of the
target line returns the document unchanged — no error, the target line
byte-identical, and no other line affected.  (Mere absence of the literal
filename string is not sufficient, since `.` in the pattern is a wildcard.) -/
theorem c3_no_match_noop (l : List (List Char)) (i : Nat) (pat : List PatElem)
    (repl : List Char) (hi : i < l.length) (hp : 0 < pat.length)
    (hnm : ∀ k, k ≤ l[i].length → matchesAt pat (l[i].drop k) = false) :
    applyOp l (Op.rep i pat repl) = some l := by
  have hall : ∀ k, matchesAt pat (l[i].drop k) = false := by
    intro k
    by_cases hk : k ≤ l[i].length
    · exact hnm k hk
    · rw [List.drop_eq_nil_of_le (by omega)]
      exact matchesAt_nil_false pat hp
  have hget : l[i]? = some l[i] := List.getElem?_eq_getElem hi
  simp only [applyOp, hget]
  rw [reSub_of_no_match pat repl _ hall, set_getElem_self_eq l i hi]

/-- C3 witness: the amended claim at the one-line document ["hello"], whose
line matches the first pattern at no position. -/
theorem c3_no_match_noop_witness :
    (0 < ([chars "hello"] : List (List Char)).length) ∧
    (0 < (litPat "perl-00-original.txt").length) ∧
    (∀ k, k ≤ (chars "hello").length →
      matchesAt (litPat "perl-00-original.txt") ((chars "hello").drop k) = false) ∧
    applyOp [chars "hello"]
        (Op.rep 0 (litPat "perl-00-original.txt") (chars "perl-00-initial-points.txt"))
      = some [chars "hello"] :=
  ⟨by decide, by decide, by decide,
   c3_no_match_noop [chars "hello"] 0 (litPat "perl-00-original.txt")
     (chars "perl-00-initial-points.txt") (by decide) (by decide) (by decide)⟩

/-- C10: `re.sub` with no count argument replaces every occurrence within
the line, not only the first: a line assembled from k pattern occurrences
separated by filler that cannot start a match (the pattern begins with the
literal `c0`, and no filler character equals `c0`) is rewritten with every
one of the k occurrences replaced. -/
theorem c10_replaces_all (ps : List PatElem) (c0 : Char) (repl : List Char)
    (pairs : List (List Char × List Char)) (tail : List Char)
    (hpairs : ∀ pr ∈ pairs, (∀ ch ∈ pr.1, ch ≠ c0) ∧
        pr.2.length = (some c0 :: ps).length ∧ matchesAt (some c0 :: ps) pr.2 = true)
    (htail : ∀ ch ∈ tail, ch ≠ c0) :
    reSub (some c0 :: ps) repl (glue pairs tail) = glueRepl repl pairs tail := by
  induction pairs with
  | nil =>
    have h2 := reSub_append_avoid ps repl c0 tail [] htail
    rw [List.append_nil, reSub_nil, List.append_nil] at h2
    exact h2
  | cons pr rest ih =>
    obtain ⟨seg, occ⟩ := pr
    obtain ⟨hseg, hlen, hm⟩ := hpairs (seg, occ) (List.mem_cons_self _ _)
    show reSub (some c0 :: ps) repl (seg ++ occ ++ glue rest tail)
      = seg ++ repl ++ glueRepl repl rest tail
    rw [List.append_assoc, reSub_append_avoid ps repl c0 seg _ hseg]
    rw [reSub_append_match (some c0 :: ps) repl occ _ (by simp) hm hlen]
    rw [ih (fun x hx => hpairs x (List.mem_cons_of_mem _ hx))]
    rw [List.append_assoc]

/-- C10 witness: a line holding two occurrences of the first pattern (one
literal, one matched through the `.` wildcard); both are replaced. -/
theorem c10_replaces_all_witness :
    (∀ pr ∈ ([(chars "A ", chars "perl-00-original.txt"),
              (chars " B ", chars "perl-00-originalXtxt")] :
                List (List Char × List Char)),
       (∀ ch ∈ pr.1, ch ≠ 'p') ∧
       pr.2.length = (some 'p' :: litPat "erl-00-original.txt").length ∧
       matchesAt (some 'p' :: litPat "erl-00-original.txt") pr.2 = true) ∧
    (∀ ch ∈ chars " C", ch ≠ 'p') ∧
    reSub (some 'p' :: litPat "erl-00-original.txt") (chars "perl-00-initial-points.txt")
        (glue [(chars "A ", chars "perl-00-original.txt"),
               (chars " B ", chars "perl-00-originalXtxt")] (chars " C"))
      = glueRepl (chars "perl-00-initial-points.txt")
          [(chars "A ", chars "perl-00-original.txt"),
           (chars " B ", chars "perl-00-originalXtxt")] (chars " C") :=
  ⟨by decide, by decide,
   c10_replaces_all (litPat "erl-00-original.txt") 'p'
     (chars "perl-00-initial-points.txt")
     [(chars "A ", chars "perl-00-original.txt"),
      (chars " B ", chars "perl-00-originalXtxt")] (chars " C")
     (by decide) (by decide)⟩
